import Mathlib

set_option maxRecDepth 10000

/-!
# Verification of the HTTP caching / invalidation core

A shallow embedding, in Lean 4, of the caching core of the repository:

* `Lookup` — the `Signal` publish/subscribe broker of `lookup.py`
  (prefix/skip tree keyed by sorted `(field, value)` pairs);
* `Sha1` — the SHA-1 digest used for ETags (`hashlib.sha1(...).hexdigest()`);
* `Commissioning` — `commissioning/cache.py`: `MemoryCache`, `CachingSend`,
  `CachingMiddleware`, and the `Subscriber` invalidation matcher;
* `Bff` — `bff/client.py` and `bff/context.py`: the client-side caching
  session and ambient header propagation.

Python dictionaries are embedded as association lists with unique keys
(`dictGet` / `dictSet` / `dictRemove` give the dict semantics), Python sets
of callbacks as duplicate-free lists (order is irrelevant to every theorem:
they are all stated through `List.count` or membership), bytes as `List Nat`,
and exceptions as `Option` / `Except` results.
-/

namespace Caching

/-- Python `str.lower()` (char-wise, kernel-computable). -/
def lower (s : String) : String := String.mk (s.data.map Char.toLower)

/-- Python `str.strip()`: drop whitespace from both ends. -/
def strip (s : String) : String :=
  String.mk (((s.data.dropWhile Char.isWhitespace).reverse.dropWhile Char.isWhitespace).reverse)

/-- Split a character list at a separator; `[[]]` for the empty input, like
Python `"".split(sep)` returning `[""]`. -/
def splitCharList (sep : Char) : List Char → List (List Char)
  | [] => [[]]
  | c :: rest =>
    if c = sep then [] :: splitCharList sep rest
    else
      match splitCharList sep rest with
      | [] => [[c]]
      | h :: t => (c :: h) :: t

/-- Python `s.split(";")`. -/
def splitSemi (s : String) : List String := (splitCharList (Char.ofNat 59) s.data).map String.mk

/-- `d.get(k)` on a Python dict embedded as an association list. -/
def dictGet {κ α : Type} [DecidableEq κ] (l : List (κ × α)) (k : κ) : Option α :=
  match l with
  | [] => none
  | (k', v) :: rest => if k' = k then some v else dictGet rest k

/-- `d[k] = v` on a Python dict: replace in place, or append a new binding. -/
def dictSet {κ α : Type} [DecidableEq κ] (l : List (κ × α)) (k : κ) (v : α) : List (κ × α) :=
  match l with
  | [] => [(k, v)]
  | (k', v') :: rest => if k' = k then (k, v) :: rest else (k', v') :: dictSet rest k v

/-- `d.pop(k, None)` on a Python dict. -/
def dictRemove {κ α : Type} [DecidableEq κ] (l : List (κ × α)) (k : κ) : List (κ × α) :=
  match l with
  | [] => []
  | (k', v') :: rest => if k' = k then rest else (k', v') :: dictRemove rest k

/-- `set.add`: adding an element already present leaves the set unchanged. -/
def setAdd (cbs : List Nat) (cb : Nat) : List Nat :=
  if cb ∈ cbs then cbs else cbs ++ [cb]

/-- `Headers.get(name)`: case-insensitive lookup (starlette / multidict). -/
def hget (hs : List (String × String)) (n : String) : Option String :=
  match hs with
  | [] => none
  | (k, v) :: rest => if lower k = lower n then some v else hget rest n

/-- `headers[name] = value` on a case-insensitive header map: replace the
first binding of the name, or append. -/
def hset (hs : List (String × String)) (n v : String) : List (String × String) :=
  match hs with
  | [] => [(n, v)]
  | (k, v') :: rest => if lower k = lower n then (k, v) :: rest else (k, v') :: hset rest n v

end Caching

namespace Lookup

open Caching

/-- A `(field name, field value)` pair labelling a tree edge (`lookup.py`
uses arbitrary hashable values; the tests use ints). -/
abbrev Pair := String × Int

/-- `Node` of `lookup.py`: `children: Dict[Tuple[str, Any], Node]`,
`callbacks: Set[Callable]`.  Callbacks are identified by numeric ids. -/
inductive Node : Type where
  | mk (children : List (Pair × Node)) (callbacks : List Nat)

def Node.children : Node → List (Pair × Node)
  | .mk cs _ => cs

def Node.callbacks : Node → List Nat
  | .mk _ cbs => cbs

/-- The relation `sorted(..., key=lambda x: x[0])` sorts by. -/
def pairLE (a b : Pair) : Prop := a.1 ≤ b.1

instance : DecidableRel pairLE := fun a b => inferInstanceAs (Decidable (a.1 ≤ b.1))

instance : IsTotal Pair pairLE := ⟨fun a b => le_total a.1 b.1⟩

instance : IsTrans Pair pairLE := ⟨fun _ _ _ h h' => le_trans h h'⟩

/-- `sorted_pairs`: sort `(field, value)` pairs by field name.  (With the
distinct keys of a Python dict the sorted list is unique, so any sorting
algorithm embeds `sorted` faithfully.) -/
def sortPairs (l : List Pair) : List Pair := l.insertionSort pairLE

/-- The inner `while match:` loop of `Signal.publish._publish`, with the
recursive call `_publish(next, match, event)` inlined as
`next.callbacks ++ publishLoop match next`: take each remaining sorted event
item in turn and, when a child edge carries it, descend with the remaining
suffix; never short-circuit. -/
def publishLoop : List Pair → Node → List Nat
  | [], _ => []
  | m :: rest, n =>
    (match dictGet n.children m with
     | some c => c.callbacks ++ publishLoop rest c
     | none => []) ++ publishLoop rest n

/-- `Signal.publish(event)`: fire the callbacks of every node reached by the
sorted-pair walk, listing fired callback ids in traversal order. -/
def Signal.publish (n : Node) (event : List Pair) : List Nat :=
  n.callbacks ++ publishLoop (sortPairs event) n

/-- The descent/creation loop of `Signal.subscribe`, after sorting. -/
def subscribeAux : List Pair → Nat → Node → Node
  | [], cb, .mk cs cbs => .mk cs (setAdd cbs cb)
  | p :: rest, cb, .mk cs cbs =>
    .mk (dictSet cs p (subscribeAux rest cb ((dictGet cs p).getD (.mk [] [])))) cbs

/-- `Signal.subscribe(filter, callback)`: sort the filter items by field
name, descend/create nodes, attach the callback at the leaf. -/
def Signal.subscribe (n : Node) (filter : List Pair) (cb : Nat) : Node :=
  subscribeAux (sortPairs filter) cb n

/-- A broker populated by a sequence of `subscribe(filter, callback)` calls
on a fresh `Signal`. -/
def Signal.ofSubs (subs : List (List Pair × Nat)) : Node :=
  subs.foldl (fun n s => Signal.subscribe n s.1 s.2) (.mk [] [])

/-- The callbacks attached to the node reached from `n` by following the
edges of `path` (empty when no such node exists). -/
def cbAtPath : List Pair → Node → List Nat
  | [], n => n.callbacks
  | p :: rest, n =>
    match dictGet n.children p with
    | some c => cbAtPath rest c
    | none => []

/-- `set.remove`: `none` embeds the `KeyError` raised when the element is
absent. -/
def setRemove (cbs : List Nat) (cb : Nat) : Option (List Nat) :=
  if cb ∈ cbs then some (cbs.erase cb) else none

/-- The `unsubscribe` closure returned by `Signal.subscribe` runs
`node.callbacks.remove(callback)` on the leaf node of the sorted filter
path; `none` embeds the propagated `KeyError`. -/
def unsubAtPath : List Pair → Nat → Node → Option Node
  | [], cb, .mk cs cbs => (setRemove cbs cb).map (.mk cs)
  | p :: rest, cb, .mk cs cbs =>
    match dictGet cs p with
    | some c => (unsubAtPath rest cb c).map (fun c' => .mk (dictSet cs p c') cbs)
    | none => none

/-- Invoking the `unsubscribe` handle obtained from
`Signal.subscribe(filter, callback)`. -/
def Signal.unsubscribe (n : Node) (filter : List Pair) (cb : Nat) : Option Node :=
  unsubAtPath (sortPairs filter) cb n

/-- Run callbacks in order until one raises (`raises`): `.ok` lists all of
them, `.error (pre, c)` records the ones invoked before the raising
callback `c`.  This is `for callback in node.callbacks: callback(event)`
with an exception propagating out of the loop. -/
def firedUntil (raises : Nat → Bool) : List Nat → Except (List Nat × Nat) (List Nat)
  | [] => .ok []
  | c :: rest =>
    if raises c then .error ([], c)
    else
      match firedUntil raises rest with
      | .ok l => .ok (c :: l)
      | .error (p, d) => .error (c :: p, d)

/-- `publishLoop` when callbacks may raise: `lookup.py` wraps no callback
invocation in `try`, so an exception aborts the whole traversal. -/
def publishExcLoop (raises : Nat → Bool) : List Pair → Node → Except (List Nat × Nat) (List Nat)
  | [], _ => .ok []
  | m :: rest, n =>
    match dictGet n.children m with
    | some c =>
      match firedUntil raises c.callbacks with
      | .error e => .error e
      | .ok l1 =>
        match publishExcLoop raises rest c with
        | .error (p, d) => .error (l1 ++ p, d)
        | .ok l2 =>
          match publishExcLoop raises rest n with
          | .error (p, d) => .error (l1 ++ l2 ++ p, d)
          | .ok l3 => .ok (l1 ++ l2 ++ l3)
    | none => publishExcLoop raises rest n

/-- `Signal.publish(event)` when the callback identified by `c` raises iff
`raises c`: `.error (pre, c)` means the exception of `c` reached the
publisher after only `pre` had been invoked. -/
def Signal.publishExc (raises : Nat → Bool) (n : Node) (event : List Pair) :
    Except (List Nat × Nat) (List Nat) :=
  match firedUntil raises n.callbacks with
  | .error e => .error e
  | .ok l =>
    match publishExcLoop raises (sortPairs event) n with
    | .error (p, d) => .error (l ++ p, d)
    | .ok l' => .ok (l ++ l')

end Lookup

namespace Sha1

/-- Truncation to a 32-bit machine word. -/
def w32 (x : Nat) : Nat := x % 4294967296

/-- 32-bit left rotation (on a word already `< 2^32`). -/
def rotl (n x : Nat) : Nat := w32 ((x <<< n) ||| (x >>> (32 - n)))

/-- SHA-1 padding: append `0x80`, zero bytes to 56 mod 64, then the bit
length as 8 big-endian bytes. -/
def padMsg (msg : List Nat) : List Nat :=
  let len := msg.length
  let zeros := (120 - ((len + 1) % 64)) % 64
  let bitLen := 8 * len
  msg ++ [128] ++ List.replicate zeros 0 ++
    [(bitLen / 72057594037927936) % 256, (bitLen / 281474976710656) % 256,
     (bitLen / 1099511627776) % 256, (bitLen / 4294967296) % 256,
     (bitLen / 16777216) % 256, (bitLen / 65536) % 256,
     (bitLen / 256) % 256, bitLen % 256]

/-- Split into 64-byte chunks; the fuel (instantiated with the length, an
upper bound on the number of chunks) keeps the recursion structural so that
proofs can evaluate digests inside the kernel. -/
def chunksAux : Nat → List Nat → List (List Nat)
  | _, [] => []
  | 0, _ :: _ => []
  | fuel + 1, x :: rest => ((x :: rest).take 64) :: chunksAux fuel ((x :: rest).drop 64)

/-- Split a padded message into 64-byte chunks. -/
def chunks (l : List Nat) : List (List Nat) := chunksAux l.length l

/-- Four big-endian bytes to one 32-bit word. -/
def word (a b c d : Nat) : Nat := ((a * 256 + b) * 256 + c) * 256 + d

/-- A 64-byte chunk as 16 big-endian 32-bit words. -/
def toWords : List Nat → List Nat
  | a :: b :: c :: d :: rest => word a b c d :: toWords rest
  | _ => []

/-- One step of the message-schedule extension:
`w[i] = rotl1 (w[i-3] xor w[i-8] xor w[i-14] xor w[i-16])`. -/
def extendStep (ws : List Nat) : List Nat :=
  ws ++ [rotl 1 ((ws.getD (ws.length - 3) 0) ^^^ (ws.getD (ws.length - 8) 0) ^^^
                 (ws.getD (ws.length - 14) 0) ^^^ (ws.getD (ws.length - 16) 0))]

/-- Extend the 16 schedule words to 80. -/
def extendWords : Nat → List Nat → List Nat
  | 0, ws => ws
  | n + 1, ws => extendWords n (extendStep ws)

/-- The SHA-1 round function applied to state `(a, b, c, d, e)` with round
index `i` and schedule word `wi`. -/
def round (i wi : Nat) : Nat × Nat × Nat × Nat × Nat → Nat × Nat × Nat × Nat × Nat
  | (a, b, c, d, e) =>
    let f :=
      if i < 20 then (b &&& c) ||| ((b ^^^ 4294967295) &&& d)
      else if i < 40 then b ^^^ c ^^^ d
      else if i < 60 then (b &&& c) ||| (b &&& d) ||| (c &&& d)
      else b ^^^ c ^^^ d
    let k :=
      if i < 20 then 1518500249
      else if i < 40 then 1859775393
      else if i < 60 then 2400959708
      else 3395469782
    (w32 (rotl 5 a + f + e + k + wi), a, rotl 30 b, c, d)

/-- Run the 80 rounds over the schedule words. -/
def rounds : Nat → List Nat → Nat × Nat × Nat × Nat × Nat → Nat × Nat × Nat × Nat × Nat
  | _, [], st => st
  | i, wi :: ws, st => rounds (i + 1) ws (round i wi st)

/-- Process one 64-byte chunk, updating the running hash state. -/
def processChunk (h : Nat × Nat × Nat × Nat × Nat) (chunk : List Nat) :
    Nat × Nat × Nat × Nat × Nat :=
  let (h0, h1, h2, h3, h4) := h
  let ws := extendWords 64 (toWords chunk)
  let (a, b, c, d, e) := rounds 0 ws (h0, h1, h2, h3, h4)
  (w32 (h0 + a), w32 (h1 + b), w32 (h2 + c), w32 (h3 + d), w32 (h4 + e))

/-- One 32-bit word as 4 big-endian bytes. -/
def wordBytes (x : Nat) : List Nat :=
  [(x / 16777216) % 256, (x / 65536) % 256, (x / 256) % 256, x % 256]

/-- SHA-1 digest of a byte string, as 20 bytes. -/
def sha1Bytes (msg : List Nat) : List Nat :=
  let h := (chunks (padMsg msg)).foldl processChunk
    (1732584193, 4023233417, 2562383102, 271733878, 3285377520)
  wordBytes h.1 ++ wordBytes h.2.1 ++ wordBytes h.2.2.1 ++
    wordBytes h.2.2.2.1 ++ wordBytes h.2.2.2.2

/-- A nibble as a lowercase hex character. -/
def hexChar (n : Nat) : Char :=
  if n < 10 then Char.ofNat (48 + n) else Char.ofNat (87 + n)

/-- A byte as two lowercase hex characters. -/
def byteHex (b : Nat) : String :=
  String.mk [hexChar (b / 16), hexChar (b % 16)]

/-- `hashlib.sha1(msg).hexdigest()`: the lowercase hex-encoded SHA-1 digest. -/
def sha1Hex (msg : List Nat) : String :=
  String.join ((sha1Bytes msg).map byteHex)

end Sha1

namespace Commissioning

open Caching

/-- `CacheEntry` of `commissioning/cache.py`: `{ etag, headers }`. -/
structure CacheEntry where
  etag : String
  headers : List (String × String)
deriving DecidableEq

/-- An element of a cache key `frozenset`: the URL itself, or a
`(header name, header value or None)` pair for a varying header. -/
abbrev KeyPart := String ⊕ (String × Option String)

/-- `MemoryCache._create_key` returns a `frozenset`. -/
abbrev CacheKey := Finset KeyPart

/-- `MemoryCache._create_key(url, request_headers, vary_headers)`:
`frozenset({url, *((name, request_headers.get(name)) for name in vary_headers)})`. -/
def createKey (url : String) (reqH : List (String × String)) (vary : List String) : CacheKey :=
  insert (Sum.inl url) ((vary.map fun n => (Sum.inr (n, hget reqH n) : KeyPart)).toFinset)

/-- `MemoryCache`: `entries: dict[key, CacheEntry]`,
`vary_headers: dict[url, tuple[str]]`. -/
structure MemoryCache where
  entries : List (CacheKey × CacheEntry)
  vary_headers : List (String × List String)
deriving DecidableEq

/-- `MemoryCache._dump_vary`: `";".join(i.strip().lower() for i in vary)`. -/
def dumpVary (vs : List String) : String :=
  String.intercalate ";" (vs.map fun s => lower (strip s))

/-- `MemoryCache._parse_vary`:
`tuple(i.strip().lower() for i in vary.split(";") if i)`. -/
def parseVary (s : String) : List String :=
  ((splitSemi s).filter fun i => i ≠ "").map fun i => lower (strip i)

/-- `MemoryCache._get_key`: look the URL up in `vary_headers` (defaulting to
the empty tuple) and build the key. -/
def MemoryCache.getKey (c : MemoryCache) (url : String) (reqH : List (String × String)) : CacheKey :=
  createKey url reqH ((dictGet c.vary_headers url).getD [])

/-- `MemoryCache.store(url, request_headers, response_headers, etag)`: record
the parsed `Vary` response header (first one, if any) in `vary_headers`,
then store the entry under the freshly computed key. -/
def MemoryCache.store (c : MemoryCache) (url : String) (reqH : List (String × String))
    (respH : List (String × String)) (etag : String) : MemoryCache :=
  let c1 :=
    match respH.find? (fun p => lower p.1 == "vary") with
    | some (_, v) => { c with vary_headers := dictSet c.vary_headers url (parseVary v) }
    | none => c
  { c1 with entries := dictSet c1.entries (c1.getKey url reqH) ⟨etag, respH⟩ }

/-- `MemoryCache.get(url, request_headers)`. -/
def MemoryCache.get (c : MemoryCache) (url : String) (reqH : List (String × String)) :
    Option CacheEntry :=
  dictGet c.entries (c.getKey url reqH)

/-- `MemoryCache.invalidate(key)`: `self.entries.pop(key, None)`. -/
def MemoryCache.invalidate (c : MemoryCache) (key : CacheKey) : MemoryCache :=
  { c with entries := dictRemove c.entries key }

/-- `headers.setdefault(name, value)` (starlette `MutableHeaders`). -/
def hsetdefault (hs : List (String × String)) (n v : String) : List (String × String) :=
  if (hget hs n).isSome then hs else hs ++ [(n, v)]

/-- `MemoryCache.vary(request, response)` followed by `_vary(*vary_headers)`:
set the response's `Vary` header if absent and compute the cache key the
invalidation scope will evict. -/
def varyDeclare (url : String) (reqH respH : List (String × String)) (varyH : List String) :
    List (String × String) × CacheKey :=
  (hsetdefault respH "Vary" (dumpVary varyH), createKey url reqH varyH)

/-- An ASGI response message: `http.response.start` or `http.response.body`
(any other `type` raises in the source and is excluded by this embedding). -/
inductive AsgiMsg : Type where
  | start (status : Nat) (headers : List (String × String))
  | body (body : List Nat) (more_body : Bool)
deriving DecidableEq

/-- `CachingSend.__call__`, iterated over the messages the wrapped app
emits.  State: `response_start` and the accumulated `response_body`.  On the
final chunk of a 200 response, hash the accumulated body, append the `ETag`
header (mutating `response_start`), store, and forward; on any other status
forward verbatim.  `.error` embeds the `RuntimeError` raised when a body
arrives before the headers. -/
def runAux (url : String) (reqH : List (String × String)) :
    MemoryCache → Option (Nat × List (String × String)) → List (List Nat × Bool) →
    List AsgiMsg → Except String (List AsgiMsg × MemoryCache)
  | cache, _, acc, .start s h :: rest => runAux url reqH cache (some (s, h)) acc rest
  | cache, st, acc, .body b more :: rest =>
    let acc' := acc ++ [(b, more)]
    if more then runAux url reqH cache st acc' rest
    else
      match st with
      | none => .error "Missing http.response.start before http.response.body"
      | some (status, headers) =>
        if status = 200 then
          let content := (acc'.map Prod.fst).flatten
          let etag := Sha1.sha1Hex content
          let headers' := headers ++ [("ETag", etag)]
          let cache' := cache.store url reqH headers' etag
          let sent := AsgiMsg.start status headers' :: acc'.map fun p => AsgiMsg.body p.1 p.2
          (runAux url reqH cache' (some (status, headers')) acc' rest).map
            fun p => (sent ++ p.1, p.2)
        else
          let sent := AsgiMsg.start status headers :: acc'.map fun p => AsgiMsg.body p.1 p.2
          (runAux url reqH cache st acc' rest).map fun p => (sent ++ p.1, p.2)
  | cache, _, _, [] => .ok ([], cache)

/-- A fresh `CachingSend(send, cache, url, request_headers)` applied to the
app's message sequence: the forwarded messages and the updated cache. -/
def runCachingSend (cache : MemoryCache) (url : String) (reqH : List (String × String))
    (msgs : List AsgiMsg) : Except String (List AsgiMsg × MemoryCache) :=
  runAux url reqH cache none [] msgs

/-- `CachingMiddleware.__call__` on an HTTP request: non-GET methods pass
through untouched; a GET whose cached etag equals `If-None-Match`
short-circuits to `not_modified` (stored headers, empty body) without
invoking the app; otherwise the app runs behind a fresh `CachingSend`.
The boolean records whether the inner app was invoked. -/
def middlewareRun (cache : MemoryCache) (method url : String)
    (reqH : List (String × String)) (app : List AsgiMsg) :
    Except String (List AsgiMsg × MemoryCache × Bool) :=
  if method ≠ "GET" then .ok (app, cache, true)
  else
    match cache.get url reqH with
    | some entry =>
      if (match hget reqH "If-None-Match" with
          | some v => entry.etag == v
          | none => false) then
        .ok ([.start 304 entry.headers, .body [] false], cache, false)
      else
        (runCachingSend cache url reqH app).map fun p => (p.1, p.2, true)
    | none => (runCachingSend cache url reqH app).map fun p => (p.1, p.2, true)

mutual

/-- A Python value as it appears in change events and invalidation filters:
scalars, the `...` wildcard, lists, and string-keyed mappings. -/
inductive PyVal : Type where
  | vInt : Int → PyVal
  | vStr : String → PyVal
  | ellipsis : PyVal
  | vList : PyList → PyVal
  | vDict : PyDict → PyVal

/-- A Python list of `PyVal`s. -/
inductive PyList : Type where
  | nil : PyList
  | cons : PyVal → PyList → PyList

/-- A Python string-keyed dict of `PyVal`s (in insertion order, keys
unique). -/
inductive PyDict : Type where
  | nil : PyDict
  | cons : String → PyVal → PyDict → PyDict

end

/-- Python `lhs == rhs` on the scalar leaves the matcher compares (the
`rhs` of this comparison is never a list, dict or `...`: those are handled
by the earlier branches of `match`). -/
def pyEq : PyVal → PyVal → Bool
  | .vInt a, .vInt b => a == b
  | .vStr a, .vStr b => a == b
  | _, _ => false

/-- `d.get(k, default)` on a `PyDict` (the default is supplied at the call
site with `Option.getD`). -/
def PyDict.get : PyDict → String → Option PyVal
  | .nil, _ => none
  | .cons k v rest, k' => if k = k' then some v else PyDict.get rest k'

/-- `len` of a `PyList`. -/
def PyList.len : PyList → Nat
  | .nil => 0
  | .cons _ rest => rest.len + 1

/-- The keys of a `PyDict`, in order. -/
def PyDict.keys : PyDict → List String
  | .nil => []
  | .cons k _ rest => k :: rest.keys

mutual

/-- The recursive `match(lhs, rhs)` of `Subscriber._match`: the wildcard
`...` matches anything; a list `rhs` requires equal lengths and pointwise
matches (a non-list `lhs` raises `TypeError`, embedded as `none`); a dict
`rhs` iterates over the items of the *event* side, comparing each value
against `rhs.get(key, ...)`; otherwise plain `==`.  `some`/`none` embed a
returned bool / a raised exception. -/
def pmatch : PyVal → PyVal → Option Bool
  | _, .ellipsis => some true
  | lhs, .vList rs =>
    match lhs with
    | .vList ls => if ls.len = rs.len then matchZip ls rs else some false
    | _ => none
  | lhs, .vDict fs =>
    match lhs with
    | .vDict es => matchItems es fs
    | _ => none
  | lhs, rhs => some (pyEq lhs rhs)

/-- `all(match(*i) for i in zip(lhs, rhs))`: left to right, stopping at the
first `False` or at the first raised exception. -/
def matchZip : PyList → PyList → Option Bool
  | .nil, _ => some true
  | .cons _ _, .nil => some true
  | .cons l ls, .cons r rs =>
    match pmatch l r with
    | none => none
    | some false => some false
    | some true => matchZip ls rs

/-- `all(match(v, rhs.get(k, ...)) for k, v in _lhs.items())`: iterate over
the items of the event side. -/
def matchItems : PyDict → PyDict → Option Bool
  | .nil, _ => some true
  | .cons k v rest, fs =>
    match pmatch v ((fs.get k).getD .ellipsis) with
    | none => none
    | some false => some false
    | some true => matchItems rest fs

end

/-- `Subscriber._match(received, expected)`: `received` is the keyword
mapping of the published event, `expected` the filter dict. -/
def Subscriber.matchFn (received expected : PyDict) : Option Bool :=
  pmatch (.vDict received) (.vDict expected)

/-- One subscription registered on a model's signal by
`Subscriber.subscribe`: the filter, the snapshot of the surrounding
`Subscriber`'s `callbacks` set (the group to disconnect when the handler
fires), and the cache key the handler `partial(cache.invalidate, key)`
evicts. -/
structure SubRec where
  id : Nat
  filters : PyDict
  group : List Nat
  key : CacheKey

/-- Modelled from the spec: the subscription side of `commissioning.crud`
(the `CrudMixin` with `subscribe`/`unsubscribe`/`notify` that
`commissioning/database.py` imports is not under `src/`).  Per §4.F and the
`Subscriber` docstring, the model keeps a collection of callbacks;
`subscribe` registers one and `notify` invokes each registered callback
with the changed row as a keyword mapping. -/
structure ModelWorld where
  registered : List SubRec
  cache : MemoryCache

/-- `Subscriber(...)` then `subscribe(model, **filters)` from
`commissioning/cache.py`: the inner `callback` closure is registered on the
model.  The `callbacks` set created by `Subscriber` is empty and `subscribe`
never executes a `callbacks.add`, so the group snapshot carried by the
registration is `[]`. -/
def subscriberSubscribe (w : ModelWorld) (id : Nat) (filters : PyDict)
    (key : CacheKey) : ModelWorld :=
  { w with registered := w.registered ++ [⟨id, filters, [], key⟩] }

/-- The body of `Subscriber.subscribe.callback` when the event passes the
filter: `for c in callbacks: model.unsubscribe(c)`, then
`handler() = cache.invalidate(cache_key)`. -/
def fireCallback (w : ModelWorld) (r : SubRec) : ModelWorld :=
  { registered := w.registered.filter fun s => !(r.group.contains s.id),
    cache := w.cache.invalidate r.key }

/-- Modelled from the spec: `CrudMixin.notify` (not under `src/`) publishes
a change event to every callback registered at the time of the mutation;
each callback of `Subscriber.subscribe` then runs only if the event passes
its filter (`if not _match(mapping, filters): return`), and is skipped if a
previously fired callback has already unsubscribed it.  Returns the world
after all callbacks ran, and the ids whose handler fired. -/
def modelNotify (w : ModelWorld) (e : PyDict) : ModelWorld × List Nat :=
  w.registered.foldl
    (fun acc r =>
      if acc.1.registered.any (fun s => s.id == r.id) then
        if Subscriber.matchFn e r.filters = some true then
          (fireCallback acc.1 r, acc.2 ++ [r.id])
        else acc
      else acc)
    (w, [])

end Commissioning

namespace Bff

open Caching

/-- An upstream HTTP response as seen by `CachingResponse` once read:
`aiohttp.ClientResponse`'s method, status, reason, headers and `_body`. -/
structure ClientResponse where
  method : String
  status : Nat
  reason : String
  headers : List (String × String)
  body : List Nat
deriving DecidableEq

/-- `bff.client.CacheEntry`: `{ etag, response }`. -/
structure ClientCacheEntry where
  etag : String
  response : ClientResponse
deriving DecidableEq

/-- The client-session cache, keyed by the `(url,)` tuple that
`CachingResponse.start` uses. -/
abbrev ClientCache := List (String × ClientCacheEntry)

/-- `CachingResponse.start(conn)` after the superclass has produced the raw
upstream response `r` for `url`: for a GET, a 200 carrying a (non-empty)
`ETag` header is stored under `(url,)`; then, on a 304 with a cached entry,
`status`, `reason` and `_body` — and only those — are replaced by the
cached response's.  Returns the effective response and the updated cache. -/
def cachingResponseStart (cache : ClientCache) (url : String) (r : ClientResponse) :
    ClientResponse × ClientCache :=
  if r.method ≠ "GET" then (r, cache)
  else
    let cache1 :=
      if r.status = 200 then
        match hget r.headers "ETag" with
        | some etag => if etag ≠ "" then dictSet cache url ⟨etag, r⟩ else cache
        | none => cache
      else cache
    match dictGet cache1 url with
    | some entry =>
      if r.status = 304 then
        ({ r with status := entry.response.status, reason := entry.response.reason,
                  body := entry.response.body }, cache1)
      else (r, cache1)
    | none => (r, cache1)

/-- `CIMultiDict.update(other)`: every binding of `other` is written into
the map, replacing any existing value for that (case-insensitive) name. -/
def multidictUpdate (hs amb : List (String × String)) : List (String × String) :=
  amb.foldl (fun acc p => hset acc p.1 p.2) hs

/-- `self.headers.update(context.current_headers())` — the header-injection
line of `CachingRequest.send`: the ambient context headers are written over
the request headers prepared by the caller. -/
def cachingRequestInject (callerHeaders ambient : List (String × String)) :
    List (String × String) :=
  multidictUpdate callerHeaders ambient

/-- `RequestHeadersMiddleware.dispatch`: the ambient context is the inbound
request's headers restricted to the allow-list (`{"x-user"}`), lowercased. -/
def requestContextOf (inbound : List (String × String)) : List (String × String) :=
  (inbound.filter fun p => lower p.1 ∈ ["x-user"]).map fun p => (lower p.1, p.2)

end Bff

namespace Caching

theorem dictGet_dictSet_self {κ α : Type} [DecidableEq κ] (l : List (κ × α)) (k : κ) (v : α) :
    dictGet (dictSet l k v) k = some v := by
  induction l with
  | nil => simp [dictGet, dictSet]
  | cons p rest ih =>
    obtain ⟨k', v'⟩ := p
    by_cases h : k' = k
    · simp [dictGet, dictSet, h]
    · simp [dictGet, dictSet, h, ih]

theorem dictGet_dictSet_ne {κ α : Type} [DecidableEq κ] (l : List (κ × α)) (k k' : κ) (v : α)
    (h : k' ≠ k) : dictGet (dictSet l k v) k' = dictGet l k' := by
  induction l with
  | nil => simp [dictGet, dictSet, Ne.symm h]
  | cons p rest ih =>
    obtain ⟨a, b⟩ := p
    by_cases ha : a = k
    · subst ha
      simp [dictGet, dictSet, Ne.symm h]
    · simp [dictGet, dictSet, ha, ih]

end Caching

namespace Lookup

open Caching

theorem cbAtPath_emptyNode (q : List Pair) : cbAtPath q (Node.mk [] []) = [] := by
  cases q <;> simp [cbAtPath, Node.children, dictGet, Node.callbacks]

theorem unsubAtPath_of_mem (cb : Nat) :
    ∀ (q : List Pair) (n : Node), cb ∈ cbAtPath q n →
      ∃ n', unsubAtPath q cb n = some n' ∧ cbAtPath q n' = (cbAtPath q n).erase cb := by
  intro q
  induction q with
  | nil =>
    intro n hm
    cases n with
    | mk cs cbs =>
      simp only [cbAtPath, Node.callbacks] at hm
      refine ⟨.mk cs (cbs.erase cb), ?_, ?_⟩
      · simp [unsubAtPath, setRemove, hm]
      · simp [cbAtPath, Node.callbacks]
  | cons p rest ih =>
    intro n hm
    cases n with
    | mk cs cbs =>
      simp only [cbAtPath, Node.children] at hm
      cases hc : dictGet cs p with
      | none => rw [hc] at hm; simp at hm
      | some c =>
        rw [hc] at hm
        obtain ⟨c', hu, hp⟩ := ih c hm
        refine ⟨.mk (dictSet cs p c') cbs, ?_, ?_⟩
        · simp [unsubAtPath, hc, hu]
        · simp [cbAtPath, Node.children, dictGet_dictSet_self, hp, hc]

theorem unsubAtPath_of_not_mem (cb : Nat) :
    ∀ (q : List Pair) (n : Node), cb ∉ cbAtPath q n → unsubAtPath q cb n = none := by
  intro q
  induction q with
  | nil =>
    intro n hm
    cases n with
    | mk cs cbs =>
      simp only [cbAtPath, Node.callbacks] at hm
      simp [unsubAtPath, setRemove, hm]
  | cons p rest ih =>
    intro n hm
    cases n with
    | mk cs cbs =>
      simp only [cbAtPath, Node.children] at hm
      cases hc : dictGet cs p with
      | none => simp [unsubAtPath, hc]
      | some c =>
        rw [hc] at hm
        simp [unsubAtPath, hc, ih c hm]

end Lookup

/-- C8 counterexample: after `subscribe({a: 1}, cb)` and a first
`unsubscribe()`, the callback set at the leaf is empty, and invoking the
same handle a second time raises `KeyError` (embedded as `none`) instead of
leaving the tree unchanged — removal is not idempotent. -/
theorem c8_counterexample :
    Lookup.Signal.unsubscribe (Lookup.Signal.ofSubs [([("a", 1)], 0)]) [("a", 1)] 0
        = some (Lookup.Node.mk [(("a", 1), Lookup.Node.mk [] [])] [])
    ∧ Lookup.Signal.unsubscribe (Lookup.Node.mk [(("a", 1), Lookup.Node.mk [] [])] []) [("a", 1)] 0
        = none :=
  ⟨rfl, rfl⟩

/-- C8 (amended): the first invocation of the `unsubscribe` handle removes
the callback from the leaf of its sorted filter path; a second invocation
raises `KeyError` (`set.remove` on a set no longer containing the
callback), so removal is not idempotent. -/
theorem c8_first_removes_second_raises (t : Lookup.Node) (f : List Lookup.Pair) (cb : Nat)
    (h : (Lookup.cbAtPath (Lookup.sortPairs f) t).count cb = 1) :
    ∃ t', Lookup.Signal.unsubscribe t f cb = some t'
      ∧ cb ∉ Lookup.cbAtPath (Lookup.sortPairs f) t'
      ∧ Lookup.Signal.unsubscribe t' f cb = none := by
  have hmem : cb ∈ Lookup.cbAtPath (Lookup.sortPairs f) t :=
    List.count_pos_iff.mp (by omega)
  obtain ⟨t', hu, hp⟩ := Lookup.unsubAtPath_of_mem cb (Lookup.sortPairs f) t hmem
  have hnot : cb ∉ Lookup.cbAtPath (Lookup.sortPairs f) t' := by
    rw [hp]
    intro hmem'
    have := List.count_pos_iff.mpr hmem'
    rw [List.count_erase_self, h] at this
    omega
  exact ⟨t', hu, hnot, Lookup.unsubAtPath_of_not_mem cb _ _ hnot⟩

/-- C8 witness: the amended statement at the tree obtained by subscribing
callback `0` with filter `{a: 1}`. -/
theorem c8_witness :
    ∃ t', Lookup.Signal.unsubscribe (Lookup.Signal.ofSubs [([("a", 1)], 0)]) [("a", 1)] 0 = some t'
      ∧ 0 ∉ Lookup.cbAtPath (Lookup.sortPairs [("a", 1)]) t'
      ∧ Lookup.Signal.unsubscribe t' [("a", 1)] 0 = none :=
  c8_first_removes_second_raises _ _ _ (by decide)

namespace Lookup

open Caching

theorem firedUntil_append (raises : Nat → Bool) (a b : List Nat) :
    firedUntil raises (a ++ b)
      = match firedUntil raises a with
        | .error e => .error e
        | .ok l =>
          match firedUntil raises b with
          | .error (p, d) => .error (l ++ p, d)
          | .ok l' => .ok (l ++ l') := by
  induction a with
  | nil =>
    simp only [List.nil_append, firedUntil]
    cases firedUntil raises b with
    | error e => obtain ⟨p, d⟩ := e; simp
    | ok l' => simp
  | cons c a' ih =>
    by_cases hr : raises c
    · simp [firedUntil, hr]
    · simp only [List.cons_append, firedUntil, hr, Bool.false_eq_true, if_false]
      rw [List.append_eq, ih]
      cases firedUntil raises a' with
      | error e => obtain ⟨p, d⟩ := e; simp
      | ok l =>
        cases firedUntil raises b with
        | error e => obtain ⟨p, d⟩ := e; simp
        | ok l' => simp

theorem publishExcLoop_eq_firedUntil (raises : Nat → Bool) :
    ∀ (ms : List Pair) (n : Node),
      publishExcLoop raises ms n = firedUntil raises (publishLoop ms n) := by
  intro ms
  induction ms with
  | nil => intro n; simp [publishExcLoop, publishLoop, firedUntil]
  | cons m rest ih =>
    intro n
    cases hc : dictGet n.children m with
    | none => simp [publishExcLoop, publishLoop, hc, ih]
    | some c =>
      simp only [publishExcLoop, publishLoop, hc, firedUntil_append, ih]
      cases firedUntil raises c.callbacks with
      | error e => obtain ⟨p, d⟩ := e; simp
      | ok l1 =>
        cases firedUntil raises (publishLoop rest c) with
        | error e => obtain ⟨p, d⟩ := e; simp
        | ok l2 =>
          cases firedUntil raises (publishLoop rest n) with
          | error e => obtain ⟨p, d⟩ := e; simp
          | ok l3 => simp

end Lookup

/-- C9 counterexample: callback `0` (filter `{}`) raises; callback `1`
(filter `{a: 1}`) matches the published event `{a: 1}`, yet `publish`
propagates the exception to the publisher (`.error`) after having invoked
no other callback — callback `1` is never fired, contradicting "every other
matching callback is still invoked and the exception is not propagated". -/
theorem c9_counterexample :
    Lookup.Signal.publishExc (fun c => c == 0)
        (Lookup.Signal.ofSubs [([], 0), ([("a", 1)], 1)]) [("a", 1)]
      = .error ([], 0) :=
  rfl

/-- C9 (amended): `Signal.publish` wraps no callback invocation in `try`:
the callbacks invoked are exactly the prefix of the normal firing sequence
that precedes the first raising callback, whose exception then propagates
to the publisher, and the callbacks after it — matching or not — are never
invoked.  (`firedUntil` is that prefix-until-first-raise semantics; when no
fired callback raises, the two sides agree on `.ok` of the full firing
sequence.) -/
theorem c9_exception_aborts_publish (raises : Nat → Bool) (n : Lookup.Node)
    (event : List Lookup.Pair) :
    Lookup.Signal.publishExc raises n event
      = Lookup.firedUntil raises (Lookup.Signal.publish n event) := by
  simp only [Lookup.Signal.publishExc, Lookup.Signal.publish, Lookup.firedUntil_append,
    Lookup.publishExcLoop_eq_firedUntil]

namespace Commissioning

theorem matchItems_congr (es fs fs' : PyDict) (h : ∀ k ∈ es.keys, fs.get k = fs'.get k) :
    matchItems es fs = matchItems es fs' := by
  cases es with
  | nil => rfl
  | cons k v rest =>
    simp only [matchItems]
    rw [h k (by simp [PyDict.keys])]
    cases pmatch v ((fs'.get k).getD .ellipsis) with
    | none => rfl
    | some b =>
      cases b with
      | false => rfl
      | true =>
        exact matchItems_congr rest fs fs' fun k' hk' => h k' (by simp [PyDict.keys, hk'])

end Commissioning

/-- C10: in `Subscriber._match(received, expected)` only the items of the
*event* side are iterated, each compared against `expected.get(key, ...)`
with the `...` wildcard for keys the filter lacks; hence (1) the empty
event mapping matches every filter, and (2) the verdict depends only on the
filter's values at the event's keys — a filter field absent from the event
imposes no constraint. -/
theorem c10_filter_keys_absent_from_event_unconstrained :
    (∀ fs : Commissioning.PyDict,
        Commissioning.Subscriber.matchFn .nil fs = some true)
    ∧ ∀ es fs fs' : Commissioning.PyDict,
        (∀ k ∈ es.keys, fs.get k = fs'.get k) →
        Commissioning.Subscriber.matchFn es fs = Commissioning.Subscriber.matchFn es fs' :=
  ⟨fun _ => rfl,
   fun es fs fs' h => Commissioning.matchItems_congr es fs fs' h⟩

/-- C10 witness: the empty event matches the filter `{project_id: "P"}`,
and the verdict of `{a: 1}` against a filter is unchanged when the filter's
binding for the absent key `zzz` is replaced by a binding for `www` — at
these inputs the filter fields missing from the event impose no
constraint. -/
theorem c10_witness :
    Commissioning.Subscriber.matchFn .nil (.cons "project_id" (.vStr "P") .nil) = some true
    ∧ Commissioning.Subscriber.matchFn (.cons "a" (.vInt 1) .nil)
          (.cons "a" (.vInt 1) (.cons "zzz" (.vInt 7) .nil))
        = Commissioning.Subscriber.matchFn (.cons "a" (.vInt 1) .nil)
          (.cons "a" (.vInt 1) (.cons "www" (.vInt 9) .nil)) :=
  ⟨c10_filter_keys_absent_from_event_unconstrained.1 _,
   c10_filter_keys_absent_from_event_unconstrained.2 _ _ _ (by
     intro k hk
     simp only [Commissioning.PyDict.keys, List.mem_cons, List.not_mem_nil, or_false] at hk
     subst hk
     rfl)⟩

/-- C4: code evaluated at the failing input.  One invalidation subscription
(filter `{project_id: "P"}`, cache key of `/projects/P/areas`) is
registered through `Subscriber`; the first matching event evicts the cache
entry, but — because `Subscriber.subscribe` never adds the registered
callback to the surrounding `callbacks` set — the disconnect loop removes
nothing: the subscription survives and its handler fires again on the next
matching event, contradicting the one-shot contract. -/
theorem c4_group_never_torn_down :
    (Commissioning.modelNotify
        (Commissioning.subscriberSubscribe
          ⟨[], ⟨[(Commissioning.createKey "/projects/P/areas" [] [], ⟨"e", []⟩)], []⟩⟩
          0 (.cons "project_id" (.vStr "P") .nil)
          (Commissioning.createKey "/projects/P/areas" [] []))
        (.cons "project_id" (.vStr "P")
          (.cons "_action" (.vStr "create") (.cons "area_id" (.vStr "A") .nil)))).2 = [0]
    ∧ (Commissioning.modelNotify
        (Commissioning.subscriberSubscribe
          ⟨[], ⟨[(Commissioning.createKey "/projects/P/areas" [] [], ⟨"e", []⟩)], []⟩⟩
          0 (.cons "project_id" (.vStr "P") .nil)
          (Commissioning.createKey "/projects/P/areas" [] []))
        (.cons "project_id" (.vStr "P")
          (.cons "_action" (.vStr "create") (.cons "area_id" (.vStr "A") .nil)))).1.cache.entries
        = []
    ∧ (Commissioning.modelNotify
        (Commissioning.modelNotify
          (Commissioning.subscriberSubscribe
            ⟨[], ⟨[(Commissioning.createKey "/projects/P/areas" [] [], ⟨"e", []⟩)], []⟩⟩
            0 (.cons "project_id" (.vStr "P") .nil)
            (Commissioning.createKey "/projects/P/areas" [] []))
          (.cons "project_id" (.vStr "P")
            (.cons "_action" (.vStr "create") (.cons "area_id" (.vStr "A") .nil)))).1
        (.cons "project_id" (.vStr "P") (.cons "_action" (.vStr "update") .nil))).2 = [0] := by
  refine ⟨?_, ?_, ?_⟩ <;> rfl

/-- C5 counterexample: storing a response whose headers carry `Vary: *`
into an empty cache is not skipped — the entries map changes. -/
theorem c5_counterexample :
    (Commissioning.MemoryCache.store ⟨[], []⟩ "u" [] [("Vary", "*")] "e").entries
      ≠ (Commissioning.MemoryCache.mk [] []).entries := by
  decide

/-- C5 (amended): `MemoryCache.store` has no `Vary: *` special case.  When
the first `Vary` response header is `*`, the vary table records the literal
tuple `("*",)` for the URL and the entry is stored under the key built from
the header name `*` (whose request value is looked up like any other
header) — the store is not skipped. -/
theorem c5_vary_star_still_stored (c : Commissioning.MemoryCache) (url : String)
    (reqH respH : List (String × String)) (etag : String) (n : String)
    (hv : respH.find? (fun p => Caching.lower p.1 == "vary") = some (n, "*")) :
    (c.store url reqH respH etag).vary_headers = Caching.dictSet c.vary_headers url ["*"]
    ∧ (c.store url reqH respH etag).entries
        = Caching.dictSet c.entries (Commissioning.createKey url reqH ["*"]) ⟨etag, respH⟩ := by
  have hp : Commissioning.parseVary "*" = ["*"] := rfl
  simp only [Commissioning.MemoryCache.store, hv, hp, Commissioning.MemoryCache.getKey,
    Caching.dictGet_dictSet_self, Option.getD_some]
  exact ⟨trivial, trivial⟩

/-- C5 witness: the amended statement at the concrete `Vary: *` store of
the counterexample. -/
theorem c5_witness :
    (Commissioning.MemoryCache.store ⟨[], []⟩ "u" [] [("Vary", "*")] "e").vary_headers
      = Caching.dictSet [] "u" ["*"]
    ∧ (Commissioning.MemoryCache.store ⟨[], []⟩ "u" [] [("Vary", "*")] "e").entries
      = Caching.dictSet [] (Commissioning.createKey "u" [] ["*"]) ⟨"e", [("Vary", "*")]⟩ :=
  c5_vary_star_still_stored ⟨[], []⟩ "u" [] [("Vary", "*")] "e" "Vary" (by decide)

/-- C6 counterexample: a 304 GET answered from a cache holding a 200
response with headers `[("content-type", "application/json")]` yields an
effective response whose status and body are the cached ones but whose
headers are still the 304's own — the caller does not observe the earlier
200 response byte-identically. -/
theorem c6_counterexample :
    (Bff.cachingResponseStart
        [("u", ⟨"v1", ⟨"GET", 200, "OK", [("content-type", "application/json")], [1, 2, 3]⟩⟩)]
        "u" ⟨"GET", 304, "Not Modified", [("etag", "v1")], []⟩).1
      ≠ ⟨"GET", 200, "OK", [("content-type", "application/json")], [1, 2, 3]⟩
    ∧ (Bff.cachingResponseStart
        [("u", ⟨"v1", ⟨"GET", 200, "OK", [("content-type", "application/json")], [1, 2, 3]⟩⟩)]
        "u" ⟨"GET", 304, "Not Modified", [("etag", "v1")], []⟩).1.status = 200
    ∧ (Bff.cachingResponseStart
        [("u", ⟨"v1", ⟨"GET", 200, "OK", [("content-type", "application/json")], [1, 2, 3]⟩⟩)]
        "u" ⟨"GET", 304, "Not Modified", [("etag", "v1")], []⟩).1.body = [1, 2, 3]
    ∧ (Bff.cachingResponseStart
        [("u", ⟨"v1", ⟨"GET", 200, "OK", [("content-type", "application/json")], [1, 2, 3]⟩⟩)]
        "u" ⟨"GET", 304, "Not Modified", [("etag", "v1")], []⟩).1.headers
        = [("etag", "v1")] := by
  decide

/-- C6 (amended): on a 304 GET with a cached entry for the URL,
`CachingResponse.start` substitutes the cached response's status, reason
and body into the effective response; the headers remain those of the 304
itself, and the cache is unchanged. -/
theorem c6_substitutes_status_reason_body (cache : Bff.ClientCache) (url : String)
    (r : Bff.ClientResponse) (entry : Bff.ClientCacheEntry) (hm : r.method = "GET")
    (hs : r.status = 304) (he : Caching.dictGet cache url = some entry) :
    Bff.cachingResponseStart cache url r
      = ({ r with status := entry.response.status, reason := entry.response.reason,
                  body := entry.response.body }, cache) := by
  simp [Bff.cachingResponseStart, hm, hs, he]

/-- C6 witness: the amended statement at the counterexample's input. -/
theorem c6_witness :
    Bff.cachingResponseStart
        [("u", ⟨"v1", ⟨"GET", 200, "OK", [("content-type", "application/json")], [1, 2, 3]⟩⟩)]
        "u" ⟨"GET", 304, "Not Modified", [("etag", "v1")], []⟩
      = (⟨"GET", 200, "OK", [("etag", "v1")], [1, 2, 3]⟩,
         [("u", ⟨"v1", ⟨"GET", 200, "OK", [("content-type", "application/json")], [1, 2, 3]⟩⟩)]) := by
  have h := c6_substitutes_status_reason_body
    [("u", ⟨"v1", ⟨"GET", 200, "OK", [("content-type", "application/json")], [1, 2, 3]⟩⟩)]
    "u" ⟨"GET", 304, "Not Modified", [("etag", "v1")], []⟩
    ⟨"v1", ⟨"GET", 200, "OK", [("content-type", "application/json")], [1, 2, 3]⟩⟩
    rfl rfl (by decide)
  simpa using h

namespace Caching

theorem hget_hset (hs : List (String × String)) (n v m : String) :
    hget (hset hs n v) m = if lower m = lower n then some v else hget hs m := by
  induction hs with
  | nil =>
    by_cases h : lower m = lower n
    · simp only [hset, hget, if_pos h.symm, if_pos h]
    · simp only [hset, hget, if_neg fun hh => h (Eq.symm hh), if_neg h]
  | cons p rest ih =>
    obtain ⟨k, v'⟩ := p
    by_cases hk : lower k = lower n
    · by_cases hm : lower m = lower n
      · simp only [hset, hget, if_pos hk, if_pos (hk.trans hm.symm), if_pos hm]
      · have hkm : ¬ lower k = lower m := fun hh => hm (hh.symm.trans hk)
        simp only [hset, hget, if_pos hk, if_neg hkm, if_neg hm]
    · by_cases hkm : lower k = lower m
      · have hm : ¬ lower m = lower n := fun hh => hk (hkm.trans hh)
        simp only [hset, hget, if_neg hk, if_pos hkm, if_neg hm]
      · simp only [hset, hget, if_neg hk, if_neg hkm, ih]

theorem hget_eq_none (l : List (String × String)) (k : String)
    (h : ∀ p ∈ l, lower p.1 ≠ lower k) : hget l k = none := by
  induction l with
  | nil => rfl
  | cons p rest ih =>
    obtain ⟨a, b⟩ := p
    simp only [hget, h (a, b) (by simp), if_false]
    exact ih fun q hq => h q (by simp [hq])

end Caching

namespace Bff

open Caching

theorem multidictUpdate_cons (hs : List (String × String)) (a : String × String)
    (rest : List (String × String)) :
    multidictUpdate hs (a :: rest) = multidictUpdate (hset hs a.1 a.2) rest :=
  rfl

theorem hget_update_of_none :
    ∀ (amb hs : List (String × String)) (k : String),
      hget amb k = none → hget (multidictUpdate hs amb) k = hget hs k := by
  intro amb
  induction amb with
  | nil => intro hs k _; rfl
  | cons a rest ih =>
    intro hs k h
    obtain ⟨an, av⟩ := a
    simp only [hget] at h
    by_cases hk : lower an = lower k
    · rw [if_pos hk] at h; exact absurd h (by simp)
    · rw [if_neg hk] at h
      rw [multidictUpdate_cons, ih (hset hs an av) k h, hget_hset,
        if_neg fun hh => hk (Eq.symm hh)]

theorem hget_update_of_some :
    ∀ (amb hs : List (String × String)) (k v : String),
      (amb.map fun p => lower p.1).Nodup → hget amb k = some v →
      hget (multidictUpdate hs amb) k = some v := by
  intro amb
  induction amb with
  | nil => intro hs k v _ h; simp [hget] at h
  | cons a rest ih =>
    intro hs k v hnd h
    obtain ⟨an, av⟩ := a
    simp only [List.map_cons, List.nodup_cons] at hnd
    obtain ⟨hna, hnd'⟩ := hnd
    simp only [hget] at h
    by_cases hk : lower an = lower k
    · rw [if_pos hk] at h
      injection h with hv
      subst hv
      have hrest : hget rest k = none := by
        apply hget_eq_none
        intro p hp hpk
        exact hna (List.mem_map.mpr ⟨p, hp, hpk.trans hk.symm⟩)
      rw [multidictUpdate_cons, hget_update_of_none rest (hset hs an av) k hrest,
        hget_hset, if_pos hk.symm]
    · rw [if_neg hk] at h
      rw [multidictUpdate_cons]
      exact ih (hset hs an av) k v hnd' h

end Bff

/-- C7 counterexample: the caller sets `x-user: custom`, the ambient
context carries `x-user: alice`; after the injection line
`self.headers.update(context.current_headers())` the outgoing value is the
ambient one — the caller's explicitly set value is overwritten. -/
theorem c7_counterexample :
    Caching.hget (Bff.cachingRequestInject [("x-user", "custom")] [("x-user", "alice")]) "x-user"
      = some "alice" ∧ ("alice" : String) ≠ "custom" := by
  exact ⟨rfl, by decide⟩

/-- C7 (amended): `CachingRequest.send` injects the ambient context headers
with `headers.update(...)`, which writes every ambient binding over any
caller-set value for that name; a header name absent from the ambient
context is left exactly as the caller set it. -/
theorem c7_ambient_headers_overwrite (hs amb : List (String × String)) (k v : String)
    (hnd : (amb.map fun p => Caching.lower p.1).Nodup) :
    (Caching.hget amb k = some v →
        Caching.hget (Bff.cachingRequestInject hs amb) k = some v)
    ∧ (Caching.hget amb k = none →
        Caching.hget (Bff.cachingRequestInject hs amb) k = Caching.hget hs k) :=
  ⟨fun h => Bff.hget_update_of_some amb hs k v hnd h,
   fun h => Bff.hget_update_of_none amb hs k h⟩

/-- C7 witness: at the counterexample's input, the ambient `x-user: alice`
wins over the caller's `x-user: custom`, while a name absent from the
ambient context (`accept`) keeps the caller's value. -/
theorem c7_witness :
    Caching.hget (Bff.cachingRequestInject [("x-user", "custom")] [("x-user", "alice")]) "x-user"
      = some "alice"
    ∧ Caching.hget (Bff.cachingRequestInject [("accept", "text/html")] [("x-user", "alice")]) "accept"
      = Caching.hget [("accept", "text/html")] "accept" :=
  ⟨(c7_ambient_headers_overwrite [("x-user", "custom")] [("x-user", "alice")] "x-user" "alice"
      (by decide)).1 (by decide),
   (c7_ambient_headers_overwrite [("accept", "text/html")] [("x-user", "alice")] "accept" "x"
      (by decide)).2 (by decide)⟩

namespace Commissioning

theorem runCachingSend_single (cache : MemoryCache) (url : String)
    (reqH hs : List (String × String)) (s : Nat) (b : List Nat) :
    runCachingSend cache url reqH [.start s hs, .body b false]
      = .ok ([.start s (if s = 200 then hs ++ [("ETag", Sha1.sha1Hex b)] else hs),
              .body b false],
             if s = 200 then
               cache.store url reqH (hs ++ [("ETag", Sha1.sha1Hex b)]) (Sha1.sha1Hex b)
             else cache) := by
  by_cases h200 : s = 200
  · subst h200
    simp [runCachingSend, runAux, Except.map]
  · simp [runCachingSend, runAux, h200, Except.map]

end Commissioning

/-- C2: with a cached entry for the GET's key (URL plus recorded vary
headers): if the request's `If-None-Match` equals the stored etag, the
middleware answers `304` with exactly the stored headers and an empty body,
leaves the cache unchanged and does not invoke the inner app (`false`); if
`If-None-Match` is absent or different, the inner app is invoked (`true`)
and its complete response is forwarded to the client (verbatim for a
non-200 status, with the `ETag` header appended and the entry stored for a
200). -/
theorem c2_conditional_get (cache : Commissioning.MemoryCache) (url : String)
    (reqH : List (String × String)) (entry : Commissioning.CacheEntry)
    (he : cache.get url reqH = some entry) :
    (∀ app, Caching.hget reqH "If-None-Match" = some entry.etag →
        Commissioning.middlewareRun cache "GET" url reqH app
          = .ok ([.start 304 entry.headers, .body [] false], cache, false))
    ∧ ∀ s hs b, Caching.hget reqH "If-None-Match" ≠ some entry.etag →
        Commissioning.middlewareRun cache "GET" url reqH [.start s hs, .body b false]
          = .ok ([.start s (if s = 200 then hs ++ [("ETag", Sha1.sha1Hex b)] else hs),
                  .body b false],
                 if s = 200 then
                   cache.store url reqH (hs ++ [("ETag", Sha1.sha1Hex b)]) (Sha1.sha1Hex b)
                 else cache,
                 true) := by
  constructor
  · intro app h2
    simp [Commissioning.middlewareRun, he, h2]
  · intro s hs b h2
    cases hi : Caching.hget reqH "If-None-Match" with
    | none =>
      simp [Commissioning.middlewareRun, he, hi, Commissioning.runCachingSend_single,
        Except.map]
    | some v =>
      have hv : ¬ entry.etag = v := fun hh => h2 (by rw [hi, hh])
      simp [Commissioning.middlewareRun, he, hi, hv, Commissioning.runCachingSend_single,
        Except.map]

/-- C2 witness: a cache holding etag `"e"` for URL `"u"` (no vary headers):
the conditional GET with `If-None-Match: e` is answered 304 from the store
without invoking the app, and a GET without `If-None-Match` invokes the app
and receives its full 200 response with the ETag appended. -/
theorem c2_witness :
    Commissioning.middlewareRun
        ⟨[(Commissioning.createKey "u" [("If-None-Match", "e")] [], ⟨"e", [("ETag", "e")]⟩)], []⟩
        "GET" "u" [("If-None-Match", "e")] []
      = .ok ([.start 304 [("ETag", "e")], .body [] false],
             ⟨[(Commissioning.createKey "u" [("If-None-Match", "e")] [], ⟨"e", [("ETag", "e")]⟩)], []⟩,
             false)
    ∧ Commissioning.middlewareRun
        ⟨[(Commissioning.createKey "u" [] [], ⟨"e", [("ETag", "e")]⟩)], []⟩
        "GET" "u" [] [.start 200 [], .body [91, 93] false]
      = .ok ([.start 200 [("ETag", "97d170e1550eee4afc0af065b78cda302a97674c")],
              .body [91, 93] false],
             Commissioning.MemoryCache.store
               ⟨[(Commissioning.createKey "u" [] [], ⟨"e", [("ETag", "e")]⟩)], []⟩
               "u" [] [("ETag", "97d170e1550eee4afc0af065b78cda302a97674c")]
               "97d170e1550eee4afc0af065b78cda302a97674c",
             true) := by
  constructor
  · exact (c2_conditional_get _ "u" [("If-None-Match", "e")] ⟨"e", [("ETag", "e")]⟩
      (by decide)).1 [] (by decide)
  · have h := (c2_conditional_get
      ⟨[(Commissioning.createKey "u" [] [], ⟨"e", [("ETag", "e")]⟩)], []⟩
      "u" [] ⟨"e", [("ETag", "e")]⟩ (by decide)).2 200 [] [91, 93] (by decide)
    simpa using h

/-- C3 counterexample: for the inner app's 200 response with complete body
`b"[]"` (bytes `[91, 93]`), the `ETag` header the middleware appends is
`97d170e1550eee4afc0af065b78cda302a97674c` = sha1(`b"[]"`), not the claimed
`da39a3ee5e6b4b0d3255bfef95601890afd80709` (which is sha1 of the *empty*
byte string). -/
theorem c3_counterexample :
    Commissioning.runCachingSend ⟨[], []⟩ "u" [] [.start 200 [], .body [91, 93] false]
      = .ok ([.start 200 [("ETag", "97d170e1550eee4afc0af065b78cda302a97674c")],
              .body [91, 93] false],
             Commissioning.MemoryCache.store ⟨[], []⟩ "u" []
               [("ETag", "97d170e1550eee4afc0af065b78cda302a97674c")]
               "97d170e1550eee4afc0af065b78cda302a97674c")
    ∧ ("97d170e1550eee4afc0af065b78cda302a97674c" : String)
        ≠ "da39a3ee5e6b4b0d3255bfef95601890afd80709" := by
  exact ⟨rfl, by decide⟩

/-- C3 (amended): on a 200 with a complete body the middleware appends
`ETag: sha1Hex(body)` — the lowercase hex SHA-1 of the exact delivered body
bytes — and stores that etag; for the body `b"[]"` this digest is
`97d170e1550eee4afc0af065b78cda302a97674c` (the value claimed in the spec,
`da39…0709`, is the SHA-1 of the empty byte string, not of `b"[]"`). -/
theorem c3_etag_is_sha1_of_body :
    (∀ (cache : Commissioning.MemoryCache) (url : String)
       (reqH hs : List (String × String)) (b : List Nat),
        Commissioning.runCachingSend cache url reqH [.start 200 hs, .body b false]
          = .ok ([.start 200 (hs ++ [("ETag", Sha1.sha1Hex b)]), .body b false],
                 cache.store url reqH (hs ++ [("ETag", Sha1.sha1Hex b)]) (Sha1.sha1Hex b)))
    ∧ Sha1.sha1Hex [91, 93] = "97d170e1550eee4afc0af065b78cda302a97674c" :=
  ⟨fun cache url reqH hs b => by
      simpa using Commissioning.runCachingSend_single cache url reqH hs 200 b,
   rfl⟩

namespace Lookup

open Caching

theorem count_publishLoop :
    ∀ (ms : List Pair) (n : Node) (cb : Nat),
      (n.callbacks ++ publishLoop ms n).count cb
        = ((ms.sublists').map fun p => (cbAtPath p n).count cb).sum := by
  intro ms
  induction ms with
  | nil =>
    intro n cb
    simp [publishLoop, List.sublists'_nil, cbAtPath]
  | cons m rest ih =>
    intro n cb
    rw [List.sublists'_cons]
    simp only [List.map_append, List.map_map, List.sum_append]
    cases hc : dictGet n.children m with
    | none =>
      have hmap : ((rest.sublists').map ((fun p => (cbAtPath p n).count cb) ∘ List.cons m))
          = (rest.sublists').map fun _ => (0 : Nat) := by
        apply List.map_congr_left
        intro p _
        simp [cbAtPath, hc]
      rw [hmap]
      have e1 := ih n cb
      rw [List.count_append] at e1
      simp only [publishLoop, hc, List.nil_append, List.count_append]
      simp [← e1]
    | some c =>
      have hmap : ((rest.sublists').map ((fun p => (cbAtPath p n).count cb) ∘ List.cons m))
          = (rest.sublists').map fun p => (cbAtPath p c).count cb := by
        apply List.map_congr_left
        intro p _
        simp [cbAtPath, hc]
      rw [hmap]
      have e1 := ih n cb
      have e2 := ih c cb
      rw [List.count_append] at e1 e2
      simp only [publishLoop, hc, List.count_append]
      omega

theorem cbAtPath_subscribeAux :
    ∀ (q : List Pair) (cb : Nat) (n : Node) (p : List Pair),
      cbAtPath p (subscribeAux q cb n)
        = if p = q then setAdd (cbAtPath q n) cb else cbAtPath p n := by
  intro q
  induction q with
  | nil =>
    intro cb n p
    cases n with
    | mk cs cbs =>
      cases p with
      | nil => simp [subscribeAux, cbAtPath, Node.callbacks]
      | cons x p' => simp [subscribeAux, cbAtPath, Node.children]
  | cons m q' ih =>
    intro cb n p
    cases n with
    | mk cs cbs =>
      cases p with
      | nil => simp [subscribeAux, cbAtPath, Node.callbacks]
      | cons x p' =>
        by_cases hx : x = m
        · subst hx
          cases hg : dictGet cs x with
          | some c =>
            by_cases hpq : p' = q'
            · simp [subscribeAux, cbAtPath, Node.children, dictGet_dictSet_self, hg, ih,
                hpq]
            · simp [subscribeAux, cbAtPath, Node.children, dictGet_dictSet_self, hg, ih,
                hpq]
          | none =>
            by_cases hpq : p' = q'
            · simp [subscribeAux, cbAtPath, Node.children, dictGet_dictSet_self, hg, ih,
                hpq, cbAtPath_emptyNode]
            · simp [subscribeAux, cbAtPath, Node.children, dictGet_dictSet_self, hg, ih,
                hpq, cbAtPath_emptyNode]
        · have hne : ¬ (x :: p') = m :: q' := by simp [hx]
          simp [subscribeAux, cbAtPath, Node.children, dictGet_dictSet_ne _ _ _ _ hx, hne]

theorem count_setAdd_of_ne (l : List Nat) (cb cb' : Nat) (h : cb ≠ cb') :
    (Caching.setAdd l cb').count cb = l.count cb := by
  unfold Caching.setAdd
  by_cases hm : cb' ∈ l
  · simp [hm]
  · simp [hm, List.count_append, List.count_singleton, h]

theorem count_setAdd_self (l : List Nat) (cb : Nat) (h : cb ∉ l) :
    (Caching.setAdd l cb).count cb = 1 := by
  unfold Caching.setAdd
  simp [h, List.count_append, List.count_eq_zero_of_not_mem h]

theorem mem_setAdd (l : List Nat) (cb cb' : Nat) :
    cb ∈ Caching.setAdd l cb' ↔ cb ∈ l ∨ cb = cb' := by
  unfold Caching.setAdd
  by_cases hm : cb' ∈ l
  · simp [hm]
    intro h
    subst h
    exact hm
  · simp [hm]

end Lookup

namespace Lookup

open Caching

theorem foldl_subscribe_count_preserved :
    ∀ (subs : List (List Pair × Nat)) (n : Node) (cb : Nat) (p : List Pair),
      cb ∉ subs.map Prod.snd →
      (cbAtPath p (subs.foldl (fun t s => Signal.subscribe t s.1 s.2) n)).count cb
        = (cbAtPath p n).count cb := by
  intro subs
  induction subs with
  | nil => intro n cb p _; rfl
  | cons s rest ih =>
    intro n cb p hcb
    obtain ⟨G, d⟩ := s
    simp only [List.map_cons, List.mem_cons, not_or] at hcb
    obtain ⟨hcd, hrest⟩ := hcb
    rw [List.foldl_cons, ih _ cb p hrest]
    simp only [Signal.subscribe, cbAtPath_subscribeAux]
    by_cases hp : p = sortPairs G
    · rw [if_pos hp, count_setAdd_of_ne _ _ _ hcd, hp]
    · rw [if_neg hp]

theorem foldl_subscribe_count_main :
    ∀ (subs : List (List Pair × Nat)) (n : Node) (F : List Pair) (cb : Nat) (p : List Pair),
      (F, cb) ∈ subs → (subs.map Prod.snd).Nodup →
      (∀ q, cb ∉ cbAtPath q n) →
      (cbAtPath p (subs.foldl (fun t s => Signal.subscribe t s.1 s.2) n)).count cb
        = if p = sortPairs F then 1 else 0 := by
  intro subs
  induction subs with
  | nil => intro n F cb p hm; simp at hm
  | cons s rest ih =>
    intro n F cb p hm hnd htree
    obtain ⟨G, d⟩ := s
    simp only [List.map_cons, List.nodup_cons] at hnd
    obtain ⟨hd, hnd'⟩ := hnd
    rcases List.mem_cons.mp hm with hhead | htail
    · injection hhead with hF hcb
      subst hF
      subst hcb
      rw [List.foldl_cons, foldl_subscribe_count_preserved rest _ cb p hd]
      simp only [Signal.subscribe, cbAtPath_subscribeAux]
      by_cases hp : p = sortPairs F
      · rw [if_pos hp, if_pos hp, count_setAdd_self _ _ (htree _)]
      · rw [if_neg hp, if_neg hp, List.count_eq_zero_of_not_mem (htree _)]
    · have hcd : cb ≠ d := by
        intro hh
        subst hh
        exact hd (List.mem_map.mpr ⟨(F, cb), htail, rfl⟩)
      rw [List.foldl_cons]
      apply ih _ F cb p htail hnd'
      intro q
      simp only [Signal.subscribe, cbAtPath_subscribeAux]
      by_cases hq : q = sortPairs G
      · rw [if_pos hq, mem_setAdd]
        push_neg
        exact ⟨htree _, hcd⟩
      · rw [if_neg hq]
        exact htree q

theorem sortPairs_perm (l : List Pair) : (sortPairs l).Perm l :=
  List.perm_insertionSort _ _

theorem sortPairs_pairwise_lt (l : List Pair) (h : (l.map Prod.fst).Nodup) :
    List.Pairwise (fun a b : Pair => a.1 < b.1) (sortPairs l) := by
  have hs : List.Pairwise pairLE (sortPairs l) := List.sorted_insertionSort pairLE l
  have hm : ((sortPairs l).map Prod.fst).Nodup :=
    (((sortPairs_perm l).map Prod.fst).nodup_iff).mpr h
  have hn : List.Pairwise (fun a b : Pair => a.1 ≠ b.1) (sortPairs l) :=
    List.pairwise_map.mp hm
  exact (hs.and hn).imp fun hab => lt_of_le_of_ne hab.1 hab.2

theorem sublist_of_subset_pairwise_lt :
    ∀ (l₂ l₁ : List Pair), List.Pairwise (fun a b : Pair => a.1 < b.1) l₁ →
      List.Pairwise (fun a b : Pair => a.1 < b.1) l₂ → l₁ ⊆ l₂ → l₁.Sublist l₂ := by
  intro l₂
  induction l₂ with
  | nil =>
    intro l₁ _ _ hsub
    rw [List.subset_nil.mp hsub]
  | cons b t ih =>
    intro l₁ h1 h2 hsub
    cases l₁ with
    | nil => exact List.nil_sublist _
    | cons a s =>
      by_cases hab : a = b
      · subst hab
        have hs : s ⊆ t := by
          intro x hx
          have hax : a.1 < x.1 := (List.pairwise_cons.mp h1).1 x hx
          rcases List.mem_cons.mp (hsub (List.mem_cons_of_mem a hx)) with hxa | hxt
          · exact absurd (hxa ▸ hax) (lt_irrefl _)
          · exact hxt
        exact (ih s (List.pairwise_cons.mp h1).2 (List.pairwise_cons.mp h2).2 hs).cons₂ a
      · have hsub' : a :: s ⊆ t := by
          intro x hx
          rcases List.mem_cons.mp (hsub hx) with hxb | hxt
          · exfalso
            rcases List.mem_cons.mp hx with hxa | hxs
            · exact hab (hxa ▸ hxb)
            · have hax : a.1 < x.1 := (List.pairwise_cons.mp h1).1 x hxs
              have hat : a ∈ t := by
                rcases List.mem_cons.mp (hsub (List.mem_cons_self a s)) with h' | h'
                · exact absurd h' hab
                · exact h'
              have hba : b.1 < a.1 := (List.pairwise_cons.mp h2).1 a hat
              rw [hxb] at hax
              exact lt_irrefl _ (lt_trans hax hba)
          · exact hxt
        exact (ih (a :: s) h1 (List.pairwise_cons.mp h2).2 hsub').cons b

theorem sum_map_indicator :
    ∀ (L : List (List Pair)) (q : List Pair), L.Nodup →
      ((L.map fun p => if p = q then (1 : Nat) else 0).sum) = if q ∈ L then 1 else 0 := by
  intro L
  induction L with
  | nil => intro q _; simp
  | cons a t ih =>
    intro q hnd
    simp only [List.nodup_cons] at hnd
    obtain ⟨hat, hnd'⟩ := hnd
    simp only [List.map_cons, List.sum_cons, ih q hnd']
    by_cases haq : a = q
    · subst haq
      rw [if_pos rfl, if_neg (fun h => hat h), if_pos (List.mem_cons_self a t)]
    · rw [if_neg haq]
      by_cases hq : q ∈ t
      · rw [if_pos hq, if_pos (List.mem_cons_of_mem a hq)]
      · rw [if_neg hq, if_neg (by simp [hq]; exact fun h => haq (Eq.symm h))]

end Lookup

/-- C1: the sorted-pair tree traversal of `Signal.publish` refines the
naive match predicate.  For a broker built from any list of subscriptions
(filters and events are Python dicts, so their keys are distinct;
subscription callbacks are distinct objects), publishing an event fires a
subscription's callback exactly once when every `(k, v)` pair of its filter
occurs in the event — extra event fields allowed — and zero times
otherwise: no duplicate invocation for overlapping or skipping paths. -/
theorem c1_publish_equals_naive_match (subs : List (List Lookup.Pair × Nat))
    (event : List Lookup.Pair)
    (hek : (event.map Prod.fst).Nodup)
    (hfk : ∀ s ∈ subs, ((s.1.map Prod.fst) : List String).Nodup)
    (hcb : (subs.map Prod.snd).Nodup)
    (F : List Lookup.Pair) (cb : Nat) (hmem : (F, cb) ∈ subs) :
    (Lookup.Signal.publish (Lookup.Signal.ofSubs subs) event).count cb
      = if ∀ p ∈ F, p ∈ event then 1 else 0 := by
  have hroot : ∀ q, cb ∉ Lookup.cbAtPath q (Lookup.Node.mk [] []) := by
    intro q
    rw [Lookup.cbAtPath_emptyNode]
    exact List.not_mem_nil cb
  have hterm : ∀ p, (Lookup.cbAtPath p (Lookup.Signal.ofSubs subs)).count cb
      = if p = Lookup.sortPairs F then 1 else 0 := fun p =>
    Lookup.foldl_subscribe_count_main subs _ F cb p hmem hcb hroot
  have hsortE : (Lookup.sortPairs event).Nodup :=
    ((Lookup.sortPairs_perm event).nodup_iff).mpr (List.Nodup.of_map Prod.fst hek)
  have hiff : Lookup.sortPairs F ∈ (Lookup.sortPairs event).sublists'
      ↔ ∀ p ∈ F, p ∈ event := by
    rw [List.mem_sublists']
    constructor
    · intro hsl p hp
      exact ((Lookup.sortPairs_perm event).subset
        (hsl.subset (((Lookup.sortPairs_perm F).symm.subset) hp)))
    · intro hsub
      apply Lookup.sublist_of_subset_pairwise_lt
      · exact Lookup.sortPairs_pairwise_lt F (hfk (F, cb) hmem)
      · exact Lookup.sortPairs_pairwise_lt event hek
      · intro p hp
        exact ((Lookup.sortPairs_perm event).symm.subset)
          (hsub p ((Lookup.sortPairs_perm F).subset hp))
  rw [show Lookup.Signal.publish (Lookup.Signal.ofSubs subs) event
      = (Lookup.Signal.ofSubs subs).callbacks
          ++ Lookup.publishLoop (Lookup.sortPairs event) (Lookup.Signal.ofSubs subs) from rfl,
    Lookup.count_publishLoop, List.map_congr_left fun p _ => hterm p,
    Lookup.sum_map_indicator _ _ (List.nodup_sublists'.mpr hsortE)]
  by_cases hm : ∀ p ∈ F, p ∈ event
  · rw [if_pos (hiff.mpr hm), if_pos hm]
  · rw [if_neg (fun hh => hm (hiff.mp hh)), if_neg hm]

/-- C1 witness: subscriptions `{a:1, b:2} → 0` and `{a:1} → 1`; publishing
`{a:1, b:2, c:3}` fires callback `0` exactly once (and, evaluating the
embedded `publish`, callback `1` exactly once as well). -/
theorem c1_witness :
    (Lookup.Signal.publish
        (Lookup.Signal.ofSubs [([("a", 1), ("b", 2)], 0), ([("a", 1)], 1)])
        [("a", 1), ("b", 2), ("c", 3)]).count 0 = 1 := by
  have h := c1_publish_equals_naive_match [([("a", 1), ("b", 2)], 0), ([("a", 1)], 1)]
    [("a", 1), ("b", 2), ("c", 3)] (by decide) (by decide) (by decide)
    [("a", 1), ("b", 2)] 0 (by decide)
  rw [if_pos (by decide)] at h
  exact h
